import Mathlib

/-!
Verification of the text-input editing core of `message_board`
(`src/client/src/input_field.rs`), embedded shallowly.

Modelling conventions:
* A Rust `String` buffer is a `List Nat` of its UTF-8 bytes (each byte a
  `Nat < 256` wherever validity matters).
* Rust `usize` byte indices are `Nat`.  The single `usize` subtraction in the
  source (`*index -= len` in `index_prev`) is `Nat` truncated subtraction;
  under the UTF-8 boundary invariant `len ≤ index` always holds there.
* Fallible lookups are `Option`.  The `unreachable!()` branch of
  `len_of_codepoint_on` is modelled as `none`, and a separate predicate
  `len_forward_panics` records exactly when that branch would be taken, so
  that its unreachability can be stated and proved.  Likewise the two
  `.unwrap()` calls in `len_of_prev_codepoint` are modelled as `none`
  (they are unreachable on valid UTF-8 input).
* Rust `char` is a Unicode scalar value, modelled as a `Nat` codepoint with
  the predicate `ScalarValue`; `String::insert`/`remove`/`pop` act on whole
  codepoints and are modelled byte-precisely via `encode_char`,
  `string_remove`, `string_pop`.
-/

/-- The leading-byte classification performed by the `match` inside
`len_of_codepoint_on` in `src/client/src/input_field.rs`:
`0xxxxxxx → 1`, `110xxxxx → 2`, `1110xxxx → 3`, `11110xxx → 4`.
The source's `unreachable!()` branch (continuation bytes `0x80..=0xBF` and
invalid bytes `0xF8..`) is modelled as `none`. -/
def classify_byte (byte : Nat) : Option Nat :=
  if byte ≤ 0x7f then some 1
  else if 0xc0 ≤ byte ∧ byte ≤ 0xdf then some 2
  else if 0xe0 ≤ byte ∧ byte ≤ 0xef then some 3
  else if 0xf0 ≤ byte ∧ byte ≤ 0xf7 then some 4
  else none

/-- `fn len_of_codepoint_on(s: &str, index: usize) -> Option<usize>`:
reads the byte at `index` (`None` when out of bounds) and classifies it by
its high bits. -/
def len_of_codepoint_on (s : List Nat) (index : Nat) : Option Nat :=
  match s.get? index with
  | none => none
  | some byte => classify_byte byte

/-- True exactly when `len_of_codepoint_on` would hit the source's
`unreachable!()` branch: the byte at `index` exists but is not a valid
UTF-8 leading byte. -/
def len_forward_panics (s : List Nat) (index : Nat) : Bool :=
  match s.get? index with
  | none => false
  | some byte => (classify_byte byte).isNone

/-- The backward scan of `len_of_prev_codepoint`, expressed on the reversed
prefix `(s.take index).reverse` (the Rust code walks a slice iterator from
the back with `next_back`).  The source's `bytes.next_back().unwrap()` calls
can panic when the prefix runs out; those two spots are modelled as `none`
and are unreachable on valid UTF-8 input. -/
def len_of_prev_from (r : List Nat) : Option Nat :=
  match r with
  | [] => none
  | b0 :: r1 =>
    if b0 < 128 then some 1
    else
      match r1 with
      | [] => none
      | b1 :: r2 =>
        if b1 &&& 0xc0 ≠ 0x80 then some 2
        else
          match r2 with
          | [] => none
          | b2 :: _ =>
            if b2 &&& 0xc0 ≠ 0x80 then some 3 else some 4

/-- `fn len_of_prev_codepoint(s: &str, index: usize) -> Option<usize>`:
`s.as_bytes().get(..index)?` is `none` when `index > s.len()`; otherwise the
backward scan runs on the reversed prefix. -/
def len_of_prev_codepoint (s : List Nat) (index : Nat) : Option Nat :=
  if index ≤ s.length then len_of_prev_from ((s.take index).reverse) else none

/-- `fn index_next(s: &str, index: &mut usize) -> bool`: advance `index` by
one codepoint.  The `bool` result is ignored at every call site in the
source, so the model returns just the updated index. -/
def index_next (s : List Nat) (index : Nat) : Nat :=
  match len_of_codepoint_on s index with
  | none => index
  | some len => index + len

/-- `fn index_prev(s: &str, index: &mut usize) -> bool`: retreat `index` by
one codepoint.  The `bool` result is ignored at every call site.  The
subtraction is `usize` subtraction in the source; `len ≤ index` holds on
valid UTF-8 boundaries. -/
def index_prev (s : List Nat) (index : Nat) : Nat :=
  match len_of_prev_codepoint s index with
  | none => index
  | some len => index - len

/-- Rust `char`: a Unicode scalar value (codepoints minus surrogates). -/
def ScalarValue (c : Nat) : Prop :=
  c < 0xd800 ∨ (0xe000 ≤ c ∧ c ≤ 0x10ffff)

instance (c : Nat) : Decidable (ScalarValue c) := by
  unfold ScalarValue; infer_instance

/-- The UTF-8 encoding of a scalar value, as produced by Rust's
`char::encode_utf8` (used implicitly by `String::insert`). -/
def encode_char (c : Nat) : List Nat :=
  if c < 0x80 then [c]
  else if c < 0x800 then [0xc0 + c / 64, 0x80 + c % 64]
  else if c < 0x10000 then
    [0xe0 + c / 4096, 0x80 + c / 64 % 64, 0x80 + c % 64]
  else
    [0xf0 + c / 262144, 0x80 + c / 4096 % 64, 0x80 + c / 64 % 64,
     0x80 + c % 64]

/-- Models `String::remove(i)`: removes the whole codepoint starting at byte
position `i` (Rust panics when `i` is the length or not a boundary; under
the editor invariant the classification always succeeds where `remove` is
called with `i < len`). -/
def string_remove (s : List Nat) (i : Nat) : List Nat :=
  match len_of_codepoint_on s i with
  | some n => s.take i ++ s.drop (i + n)
  | none => s

/-- Models `String::pop()`: removes the last codepoint, if any. -/
def string_pop (s : List Nat) : List Nat :=
  match len_of_prev_codepoint s s.length with
  | some n => s.take (s.length - n)
  | none => s

/-- `struct InputFieldState { text, caret, caret2 }`: the buffer, the caret
byte offset, and the optional selection end (`caret2` present ⟺ selection
mode). -/
structure InputFieldState where
  text : List Nat
  caret : Nat
  caret2 : Option Nat
deriving DecidableEq, Repr

/-- `fn is_in_selection_mode(&self) -> bool`. -/
def InputFieldState.is_in_selection_mode (st : InputFieldState) : Bool :=
  st.caret2.isSome

/-- `fn caret_is_at_end(&self) -> bool`. -/
def InputFieldState.caret_is_at_end (st : InputFieldState) : Bool :=
  st.caret == st.text.length

/-- `fn take_text(&mut self) -> String`: returns the buffer and resets the
state to empty. -/
def InputFieldState.take_text (st : InputFieldState) :
    List Nat × InputFieldState :=
  (st.text, { text := [], caret := 0, caret2 := none })

/-- `fn clear(&mut self)`: calls `take_text` and drops the result. -/
def InputFieldState.clear (st : InputFieldState) : InputFieldState :=
  st.take_text.2

/-- `fn delete_backward(&mut self)`.  In selection mode,
`text.drain(range(caret, caret2))` removes the normalized range
`[min, max)` and collapses.  In caret mode, `index_prev` then either
`text.pop()` (when the moved caret equals the length) or
`text.remove(caret)`. -/
def InputFieldState.delete_backward (st : InputFieldState) : InputFieldState :=
  match st.caret2 with
  | some caret2 =>
    { text := st.text.take (min st.caret caret2) ++
        st.text.drop (max st.caret caret2),
      caret := min st.caret caret2,
      caret2 := none }
  | none =>
    let caret1 := index_prev st.text st.caret
    if caret1 = st.text.length then
      { st with text := string_pop st.text, caret := caret1 }
    else
      { st with text := string_remove st.text caret1, caret := caret1 }

/-- `fn insert(&mut self, char: char)`: in selection mode first
`delete_backward`, then `String::insert(caret, char)` and `index_next`. -/
def InputFieldState.insert (st : InputFieldState) (c : Nat) : InputFieldState :=
  let st1 := if st.is_in_selection_mode then st.delete_backward else st
  let text2 := st1.text.take st1.caret ++ encode_char c ++
    st1.text.drop st1.caret
  { text := text2, caret := index_next text2 st1.caret, caret2 := st1.caret2 }

/-- `fn delete_forward(&mut self)`: selection branch identical to
`delete_backward`; in caret mode `text.remove(caret)` unless at end. -/
def InputFieldState.delete_forward (st : InputFieldState) : InputFieldState :=
  match st.caret2 with
  | some caret2 =>
    { text := st.text.take (min st.caret caret2) ++
        st.text.drop (max st.caret caret2),
      caret := min st.caret caret2,
      caret2 := none }
  | none =>
    if st.caret_is_at_end then st
    else { st with text := string_remove st.text st.caret }

/-- `fn caret_left(&mut self)`: collapse any selection to its `caret2`
endpoint, then step one codepoint back. -/
def InputFieldState.caret_left (st : InputFieldState) : InputFieldState :=
  let base := match st.caret2 with
    | some caret2 => caret2
    | none => st.caret
  { text := st.text, caret := index_prev st.text base, caret2 := none }

/-- `fn caret_right(&mut self)`: collapse any selection to its `caret2`
endpoint, then step one codepoint forward. -/
def InputFieldState.caret_right (st : InputFieldState) : InputFieldState :=
  let base := match st.caret2 with
    | some caret2 => caret2
    | none => st.caret
  { text := st.text, caret := index_next st.text base, caret2 := none }

/-- `fn caret_left_end(&mut self)`: exit selection mode, caret to 0. -/
def InputFieldState.caret_left_end (st : InputFieldState) : InputFieldState :=
  { st with caret := 0, caret2 := none }

/-- `fn caret_right_end(&mut self)`: exit selection mode, caret to the
buffer length. -/
def InputFieldState.caret_right_end (st : InputFieldState) : InputFieldState :=
  { st with caret := st.text.length, caret2 := none }

/-- `fn select_left(&mut self)`: with a selection, move `caret2` one
codepoint back and collapse when it reaches `caret`; otherwise create a
selection whose `caret2` is the caret moved one codepoint back
(stored unconditionally, even when `index_prev` did not move). -/
def InputFieldState.select_left (st : InputFieldState) : InputFieldState :=
  match st.caret2 with
  | some caret2 =>
    let caret2' := index_prev st.text caret2
    if st.caret = caret2' then { st with caret2 := none }
    else { st with caret2 := some caret2' }
  | none =>
    { st with caret2 := some (index_prev st.text st.caret) }

/-- `fn select_right(&mut self)`: mirror image of `select_left`. -/
def InputFieldState.select_right (st : InputFieldState) : InputFieldState :=
  match st.caret2 with
  | some caret2 =>
    let caret2' := index_next st.text caret2
    if st.caret = caret2' then { st with caret2 := none }
    else { st with caret2 := some caret2' }
  | none =>
    { st with caret2 := some (index_next st.text st.caret) }

/-- Modelled from the spec: `InputFieldState::copy` is invoked by
`UIState::copy` in `src/client/src/tui.rs` but its definition is not among
the provided sources.  Per spec §4.3: "if in SelectionMode, writes the
selected substring to the clipboard adapter; if the adapter call fails, the
failure is reported to the caller (via a fallible result) and the
buffer/cursor are unchanged — copy never mutates editor state."  The
clipboard adapter's `writeText` is a function to `Except ε Unit`; `copy`
returns the adapter's result alongside the (unchanged) state. -/
def InputFieldState.copy {ε : Type} (st : InputFieldState)
    (writeText : List Nat → Except ε Unit) :
    Except ε Unit × InputFieldState :=
  match st.caret2 with
  | some caret2 =>
    let a := min st.caret caret2
    let b := max st.caret caret2
    (writeText ((st.text.take b).drop a), st)
  | none => (Except.ok (), st)

/-! ## Validity predicates (UTF-8 structure, boundaries, state invariant) -/

/-- A UTF-8 continuation byte: `10xxxxxx`, i.e. `0x80..=0xBF`. -/
def IsCont (b : Nat) : Prop := 0x80 ≤ b ∧ b ≤ 0xbf

/-- Structural shape of one encoded codepoint: a leading byte whose
classification equals the unit's total length, followed by continuation
bytes. -/
def UnitShape : List Nat → Prop
  | [] => False
  | b :: rest => classify_byte b = some (rest.length + 1) ∧ ∀ x ∈ rest, IsCont x

/-- A byte list that is the UTF-8 encoding of a single Unicode scalar
value. -/
def IsCharEnc (u : List Nat) : Prop := ∃ c, ScalarValue c ∧ u = encode_char c

/-- The byte offset of the `k`-th codepoint boundary of the decomposition
`us`. -/
def off (us : List (List Nat)) (k : Nat) : Nat := ((us.take k).flatten).length

/-- `i` is one of the codepoint-boundary offsets of the decomposition
`us`. -/
def BoundaryIn (us : List (List Nat)) (i : Nat) : Prop :=
  ∃ k, k ≤ us.length ∧ i = off us k

/-- Valid UTF-8: the byte list is the concatenation of encodings of Unicode
scalar values. -/
def ValidUtf8 (s : List Nat) : Prop :=
  ∃ us : List (List Nat), (∀ u ∈ us, IsCharEnc u) ∧ s = us.flatten

/-- `s` is valid UTF-8 and `i` is on a codepoint boundary of `s`
(hence `i ≤ s.length`). -/
def TextBoundary (s : List Nat) (i : Nat) : Prop :=
  ∃ us : List (List Nat), (∀ u ∈ us, IsCharEnc u) ∧ s = us.flatten ∧ BoundaryIn us i

/-- The data-model invariant of `InputFieldState`: the buffer decomposes
into encoded scalar values and both carets sit on boundaries of that
decomposition. -/
def StateInv (st : InputFieldState) : Prop :=
  ∃ us : List (List Nat), (∀ u ∈ us, IsCharEnc u) ∧ st.text = us.flatten ∧
    BoundaryIn us st.caret ∧ ∀ c2, st.caret2 = some c2 → BoundaryIn us c2

/-- States reachable from the initial empty editor by the public
operations. -/
inductive Reachable : InputFieldState → Prop where
  | init : Reachable { text := [], caret := 0, caret2 := none }
  | insert {st c} : Reachable st → ScalarValue c → Reachable (st.insert c)
  | delete_backward {st} : Reachable st → Reachable st.delete_backward
  | delete_forward {st} : Reachable st → Reachable st.delete_forward
  | caret_left {st} : Reachable st → Reachable st.caret_left
  | caret_right {st} : Reachable st → Reachable st.caret_right
  | caret_left_end {st} : Reachable st → Reachable st.caret_left_end
  | caret_right_end {st} : Reachable st → Reachable st.caret_right_end
  | select_left {st} : Reachable st → Reachable st.select_left
  | select_right {st} : Reachable st → Reachable st.select_right
  | clear {st} : Reachable st → Reachable st.clear
  | take_text {st} : Reachable st → Reachable st.take_text.2

/-! ## Byte-level lemmas -/

set_option maxRecDepth 8192

theorem land_c0_of_cont : ∀ b < 256, 0x80 ≤ b → b ≤ 0xbf → b &&& 0xc0 = 0x80 := by
  decide

theorem land_c0_of_lead : ∀ b < 256, 0xc0 ≤ b → b &&& 0xc0 = 0xc0 := by
  decide

theorem isCont_land {b : Nat} (h : IsCont b) : b &&& 0xc0 = 0x80 := by
  obtain ⟨h1, h2⟩ := h
  exact land_c0_of_cont b (by omega) h1 h2

theorem isCont_not_ascii {b : Nat} (h : IsCont b) : ¬b < 128 := by
  have := h.1; omega

theorem classify_byte_cases {b n : Nat} (h : classify_byte b = some n) :
    (b ≤ 0x7f ∧ n = 1) ∨ (0xc0 ≤ b ∧ b ≤ 0xdf ∧ n = 2) ∨
      (0xe0 ≤ b ∧ b ≤ 0xef ∧ n = 3) ∨ (0xf0 ≤ b ∧ b ≤ 0xf7 ∧ n = 4) := by
  unfold classify_byte at h
  split_ifs at h <;> simp_all

theorem classify_lead_land {b n : Nat} (h : classify_byte b = some n)
    (h2 : 2 ≤ n) : b &&& 0xc0 = 0xc0 := by
  rcases classify_byte_cases h with ⟨_, rfl⟩ | ⟨h1, _, rfl⟩ | ⟨h1, _, rfl⟩ |
    ⟨h1, _, rfl⟩
  · omega
  · exact land_c0_of_lead b (by omega) (by omega)
  · exact land_c0_of_lead b (by omega) (by omega)
  · exact land_c0_of_lead b (by omega) (by omega)

/-! ## `UnitShape` and `encode_char` -/

theorem unitShape_cons {b : Nat} {rest : List Nat} :
    UnitShape (b :: rest) ↔
      classify_byte b = some (rest.length + 1) ∧ ∀ x ∈ rest, IsCont x := by
  rfl

theorem unitShape_length_pos {u : List Nat} (h : UnitShape u) : 1 ≤ u.length := by
  cases u with
  | nil => exact absurd h (by simp [UnitShape])
  | cons b rest => simp

theorem unitShape_encode_char {c : Nat} (hc : c ≤ 0x10ffff) :
    UnitShape (encode_char c) := by
  unfold encode_char
  split_ifs with h1 h2 h3
  · rw [unitShape_cons]
    constructor
    · show classify_byte c = some 1
      unfold classify_byte
      rw [if_pos (by omega)]
    · simp
  · rw [unitShape_cons]
    constructor
    · show classify_byte (0xc0 + c / 64) = some 2
      unfold classify_byte
      rw [if_neg (by omega), if_pos (by omega)]
    · intro x hx
      simp only [List.mem_singleton] at hx
      subst hx
      exact ⟨by omega, by omega⟩
  · rw [unitShape_cons]
    constructor
    · show classify_byte (0xe0 + c / 4096) = some 3
      unfold classify_byte
      rw [if_neg (by omega), if_neg (by omega), if_pos (by omega)]
    · intro x hx
      simp only [List.mem_cons, List.not_mem_nil, or_false] at hx
      rcases hx with rfl | rfl <;> exact ⟨by omega, by omega⟩
  · rw [unitShape_cons]
    constructor
    · show classify_byte (0xf0 + c / 262144) = some 4
      unfold classify_byte
      rw [if_neg (by omega), if_neg (by omega), if_neg (by omega),
        if_pos (by omega)]
    · intro x hx
      simp only [List.mem_cons, List.not_mem_nil, or_false] at hx
      rcases hx with rfl | rfl | rfl <;> exact ⟨by omega, by omega⟩

theorem scalar_le {c : Nat} (hc : ScalarValue c) : c ≤ 0x10ffff := by
  rcases hc with h | ⟨_, h⟩ <;> omega

theorem unitShape_of_charEnc {u : List Nat} (h : IsCharEnc u) : UnitShape u := by
  obtain ⟨c, hc, rfl⟩ := h
  exact unitShape_encode_char (scalar_le hc)

/-! ## Offset and decomposition lemmas -/

theorem off_zero (us : List (List Nat)) : off us 0 = 0 := rfl

theorem off_nil (k : Nat) : off ([] : List (List Nat)) k = 0 := by
  simp [off]

theorem off_cons_succ (u : List Nat) (us : List (List Nat)) (k : Nat) :
    off (u :: us) (k + 1) = u.length + off us k := by
  simp [off]

theorem off_mono (us : List (List Nat)) :
    ∀ {k k' : Nat}, k ≤ k' → off us k ≤ off us k' := by
  induction us with
  | nil => intro k k' _; simp [off_nil]
  | cons u us ih =>
    intro k k' h
    cases k with
    | zero => simp [off_zero]
    | succ k =>
      cases k' with
      | zero => omega
      | succ k' =>
        rw [off_cons_succ, off_cons_succ]
        exact Nat.add_le_add_left (ih (by omega)) _

theorem flatten_take_off (us : List (List Nat)) (k : Nat) :
    us.flatten.take (off us k) = (us.take k).flatten := by
  have h : us.flatten = (us.take k).flatten ++ (us.drop k).flatten := by
    rw [← List.flatten_append, List.take_append_drop]
  rw [h]
  exact List.take_left' rfl

theorem flatten_drop_off (us : List (List Nat)) (k : Nat) :
    us.flatten.drop (off us k) = (us.drop k).flatten := by
  have h : us.flatten = (us.take k).flatten ++ (us.drop k).flatten := by
    rw [← List.flatten_append, List.take_append_drop]
  rw [h]
  exact List.drop_left' rfl

theorem off_le_total (us : List (List Nat)) (k : Nat) :
    off us k ≤ us.flatten.length := by
  conv_rhs => rw [← List.take_append_drop k us]
  rw [List.flatten_append, List.length_append]
  exact Nat.le_add_right _ _

theorem off_length (us : List (List Nat)) : off us us.length = us.flatten.length := by
  simp [off]

theorem off_ge (us : List (List Nat)) {k : Nat} (h : us.length ≤ k) :
    off us k = us.flatten.length := by
  simp [off, List.take_of_length_le h]

/-- Splitting a decomposition at an internal boundary `k < us.length`. -/
theorem decomp_split (us : List (List Nat)) {k : Nat} (hk : k < us.length) :
    us.flatten = (us.take k).flatten ++ us[k] ++ (us.drop (k + 1)).flatten ∧
      off us (k + 1) = off us k + us[k].length := by
  have hdrop : us.drop k = us[k] :: us.drop (k + 1) := List.drop_eq_getElem_cons hk
  constructor
  · conv_lhs => rw [← List.take_append_drop k us]
    rw [hdrop, List.flatten_append, List.flatten_cons, List.append_assoc]
  · have htake : us.take (k + 1) = us.take k ++ [us[k]] := by
      rw [List.take_succ]
      simp [List.getElem?_eq_getElem hk]
    unfold off
    rw [htake, List.flatten_append, List.length_append]
    simp

/-! ## Scanner behaviour at codepoint boundaries -/

theorem len_on_out {s : List Nat} {i : Nat} (h : s.length ≤ i) :
    len_of_codepoint_on s i = none := by
  unfold len_of_codepoint_on
  rw [List.get?_eq_none.2 h]

theorem get?_append_offset (p rest : List Nat) (i : Nat) :
    (p ++ rest).get? (p.length + i) = rest.get? i := by
  rw [List.get?_eq_getElem?, List.get?_eq_getElem?,
    List.getElem?_append_right (by omega)]
  congr 1
  omega

/-- `len_of_codepoint_on` at the start of a well-shaped unit returns the
unit's length, independently of what precedes and follows it. -/
theorem len_on_unit {p u s : List Nat} (hu : UnitShape u) :
    len_of_codepoint_on (p ++ u ++ s) p.length = some u.length := by
  cases u with
  | nil => exact absurd hu (by simp [UnitShape])
  | cons b rest =>
    rw [unitShape_cons] at hu
    unfold len_of_codepoint_on
    rw [List.append_assoc]
    have : (p ++ (b :: rest ++ s)).get? (p.length + 0) = (b :: rest ++ s).get? 0 :=
      get?_append_offset p (b :: rest ++ s) 0
    rw [Nat.add_zero] at this
    rw [this]
    simpa using hu.1

/-- `len_of_prev_codepoint` just after a well-shaped unit returns the unit's
length: the backward scan never leaves the unit. -/
theorem len_prev_unit {p u s : List Nat} (hu : UnitShape u) :
    len_of_prev_codepoint (p ++ u ++ s) (p.length + u.length) = some u.length := by
  cases u with
  | nil => exact absurd hu (by simp [UnitShape])
  | cons b rest =>
    rw [unitShape_cons] at hu
    obtain ⟨hb, hrest⟩ := hu
    unfold len_of_prev_codepoint
    rw [if_pos (by simp only [List.length_append, List.length_cons]; omega)]
    have htake : (p ++ (b :: rest) ++ s).take (p.length + (b :: rest).length) =
        p ++ (b :: rest) := by
      refine List.take_left' ?_
      simp
    rw [htake, List.reverse_append]
    rcases classify_byte_cases hb with ⟨hb1, hn⟩ | ⟨hb1, hb2, hn⟩ |
      ⟨hb1, hb2, hn⟩ | ⟨hb1, hb2, hn⟩
    · -- 1-byte unit: rest = []
      have hrnil : rest = [] := List.eq_nil_of_length_eq_zero (by omega)
      subst hrnil
      show len_of_prev_from (b :: p.reverse) = some 1
      simp only [len_of_prev_from]
      rw [if_pos (by omega)]
    · -- 2-byte unit: rest = [c1]
      obtain ⟨c1, rfl⟩ : ∃ c1, rest = [c1] := by
        cases rest with
        | nil => simp at hn
        | cons x xs =>
          cases xs with
          | nil => exact ⟨x, rfl⟩
          | cons y ys => simp at hn
      have hc1 : IsCont c1 := hrest c1 (by simp)
      show len_of_prev_from (c1 :: b :: p.reverse) = some 2
      simp only [len_of_prev_from]
      rw [if_neg (isCont_not_ascii hc1)]
      have : b &&& 0xc0 = 0xc0 := land_c0_of_lead b (by omega) (by omega)
      rw [if_pos (by omega)]
    · -- 3-byte unit: rest = [c1, c2]
      obtain ⟨c1, c2, rfl⟩ : ∃ c1 c2, rest = [c1, c2] := by
        cases rest with
        | nil => simp at hn
        | cons x xs =>
          cases xs with
          | nil => simp at hn
          | cons y ys =>
            cases ys with
            | nil => exact ⟨x, y, rfl⟩
            | cons z zs => simp at hn
      have hc1 : IsCont c1 := hrest c1 (by simp)
      have hc2 : IsCont c2 := hrest c2 (by simp)
      show len_of_prev_from (c2 :: c1 :: b :: p.reverse) = some 3
      simp only [len_of_prev_from]
      rw [if_neg (isCont_not_ascii hc2)]
      rw [if_neg (by rw [isCont_land hc1]; omega)]
      have : b &&& 0xc0 = 0xc0 := land_c0_of_lead b (by omega) (by omega)
      rw [if_pos (by omega)]
    · -- 4-byte unit: rest = [c1, c2, c3]
      obtain ⟨c1, c2, c3, rfl⟩ : ∃ c1 c2 c3, rest = [c1, c2, c3] := by
        cases rest with
        | nil => simp at hn
        | cons x xs =>
          cases xs with
          | nil => simp at hn
          | cons y ys =>
            cases ys with
            | nil => simp at hn
            | cons z zs =>
              cases zs with
              | nil => exact ⟨x, y, z, rfl⟩
              | cons w ws => simp at hn
      have hc1 : IsCont c1 := hrest c1 (by simp)
      have hc2 : IsCont c2 := hrest c2 (by simp)
      have hc3 : IsCont c3 := hrest c3 (by simp)
      show len_of_prev_from (c3 :: c2 :: c1 :: b :: p.reverse) = some 4
      simp only [len_of_prev_from]
      rw [if_neg (isCont_not_ascii hc3)]
      rw [if_neg (by rw [isCont_land hc2]; omega)]
      rw [if_neg (by rw [isCont_land hc1]; omega)]

theorem len_prev_zero (s : List Nat) : len_of_prev_codepoint s 0 = none := by
  unfold len_of_prev_codepoint
  rw [if_pos (Nat.zero_le _)]
  simp [len_of_prev_from]

theorem units_of_charEnc {us : List (List Nat)} (h : ∀ u ∈ us, IsCharEnc u) :
    ∀ u ∈ us, UnitShape u := fun u hu => unitShape_of_charEnc (h u hu)

/-- Forward scan at an internal boundary reads off the length of the unit
starting there. -/
theorem len_on_boundary {us : List (List Nat)} (hus : ∀ u ∈ us, UnitShape u)
    {k : Nat} (hk : k < us.length) :
    len_of_codepoint_on us.flatten (off us k) = some (us[k].length) := by
  obtain ⟨hsplit, _⟩ := decomp_split us hk
  have hu : UnitShape us[k] := hus _ (List.getElem_mem hk)
  rw [hsplit, show off us k = ((us.take k).flatten).length from rfl]
  exact len_on_unit hu

/-- Backward scan just after an internal unit reads off that unit's
length. -/
theorem len_prev_boundary {us : List (List Nat)} (hus : ∀ u ∈ us, UnitShape u)
    {k : Nat} (hk : k < us.length) :
    len_of_prev_codepoint us.flatten (off us (k + 1)) = some (us[k].length) := by
  obtain ⟨hsplit, hoff⟩ := decomp_split us hk
  have hu : UnitShape us[k] := hus _ (List.getElem_mem hk)
  rw [hsplit, hoff, show off us k = ((us.take k).flatten).length from rfl]
  exact len_prev_unit hu

theorem index_next_lt {us : List (List Nat)} (hus : ∀ u ∈ us, UnitShape u)
    {k : Nat} (hk : k < us.length) :
    index_next us.flatten (off us k) = off us (k + 1) := by
  unfold index_next
  rw [len_on_boundary hus hk]
  exact ((decomp_split us hk).2).symm

theorem index_next_end (s : List Nat) : index_next s s.length = s.length := by
  unfold index_next
  rw [len_on_out (le_refl _)]

theorem index_prev_succ {us : List (List Nat)} (hus : ∀ u ∈ us, UnitShape u)
    {k : Nat} (hk : k < us.length) :
    index_prev us.flatten (off us (k + 1)) = off us k := by
  unfold index_prev
  rw [len_prev_boundary hus hk]
  show off us (k + 1) - us[k].length = off us k
  have := (decomp_split us hk).2
  omega

theorem index_prev_zero (s : List Nat) : index_prev s 0 = 0 := by
  unfold index_prev
  rw [len_prev_zero]

theorem boundaryIn_index_next {us : List (List Nat)}
    (hus : ∀ u ∈ us, UnitShape u) {i : Nat} (h : BoundaryIn us i) :
    BoundaryIn us (index_next us.flatten i) := by
  obtain ⟨k, hk, rfl⟩ := h
  rcases Nat.lt_or_ge k us.length with hlt | hge
  · rw [index_next_lt hus hlt]
    exact ⟨k + 1, by omega, rfl⟩
  · have hk' : k = us.length := by omega
    subst hk'
    rw [off_length, index_next_end]
    exact ⟨us.length, le_refl _, (off_length us).symm⟩

theorem boundaryIn_index_prev {us : List (List Nat)}
    (hus : ∀ u ∈ us, UnitShape u) {i : Nat} (h : BoundaryIn us i) :
    BoundaryIn us (index_prev us.flatten i) := by
  obtain ⟨k, hk, rfl⟩ := h
  cases k with
  | zero => rw [off_zero, index_prev_zero]; exact ⟨0, Nat.zero_le _, rfl⟩
  | succ k =>
    rw [index_prev_succ hus (by omega)]
    exact ⟨k, by omega, rfl⟩

theorem boundaryIn_zero (us : List (List Nat)) : BoundaryIn us 0 :=
  ⟨0, Nat.zero_le _, rfl⟩

theorem boundaryIn_length (us : List (List Nat)) :
    BoundaryIn us us.flatten.length :=
  ⟨us.length, le_refl _, (off_length us).symm⟩

theorem boundaryIn_le {us : List (List Nat)} {i : Nat} (h : BoundaryIn us i) :
    i ≤ us.flatten.length := by
  obtain ⟨k, _, rfl⟩ := h
  exact off_le_total us k

/-! ## Operation descriptions and invariant preservation -/

/-- In selection mode, `delete_forward` performs exactly the same state
transformation as `delete_backward`. -/
theorem delete_forward_eq_backward {st : InputFieldState} {c2 : Nat}
    (h : st.caret2 = some c2) : st.delete_forward = st.delete_backward := by
  unfold InputFieldState.delete_forward InputFieldState.delete_backward
  rw [h]

/-- Selection-mode `delete_backward`, described explicitly. -/
theorem delete_backward_sel_eq {st : InputFieldState} {c2 : Nat}
    (h : st.caret2 = some c2) :
    st.delete_backward =
      { text := st.text.take (min st.caret c2) ++ st.text.drop (max st.caret c2),
        caret := min st.caret c2, caret2 := none } := by
  unfold InputFieldState.delete_backward
  rw [h]

/-- `delete_backward` always leaves caret mode. -/
theorem delete_backward_caret2 (st : InputFieldState) :
    st.delete_backward.caret2 = none := by
  obtain ⟨text, caret, caret2⟩ := st
  cases caret2 with
  | some c2 => rfl
  | none =>
    unfold InputFieldState.delete_backward
    dsimp only
    split <;> rfl

theorem boundary_min_max {us : List (List Nat)} {i j : Nat}
    (hi : BoundaryIn us i) (hj : BoundaryIn us j) :
    ∃ ka kb, ka ≤ kb ∧ kb ≤ us.length ∧ min i j = off us ka ∧
      max i j = off us kb := by
  obtain ⟨ki, hki, rfl⟩ := hi
  obtain ⟨kj, hkj, rfl⟩ := hj
  rcases le_total ki kj with h | h
  · exact ⟨ki, kj, h, hkj, by rw [min_eq_left (off_mono us h)],
      by rw [max_eq_right (off_mono us h)]⟩
  · exact ⟨kj, ki, h, hki, by rw [min_eq_right (off_mono us h)],
      by rw [max_eq_left (off_mono us h)]⟩

theorem off_append_take {us : List (List Nat)} {k j : Nat} (hj : j ≤ k)
    (hk : k ≤ us.length) (vs : List (List Nat)) :
    off (us.take k ++ vs) j = off us j := by
  unfold off
  rw [List.take_append_of_le_length (by rw [List.length_take]; omega),
    List.take_take, inf_eq_left.2 hj]

/-- Deletion of the whole normalized selection preserves the invariant. -/
theorem stateInv_del_sel {st : InputFieldState} {c2 : Nat} (hinv : StateInv st)
    (h : st.caret2 = some c2) : StateInv st.delete_backward := by
  obtain ⟨us, hmem, htext, hc, hc2all⟩ := hinv
  obtain ⟨ka, kb, hab, hkb, hmin, hmax⟩ :=
    boundary_min_max hc (hc2all c2 h)
  rw [delete_backward_sel_eq h]
  refine ⟨us.take ka ++ us.drop kb, ?_, ?_, ?_, ?_⟩
  · intro u hu
    rcases List.mem_append.1 hu with h' | h'
    · exact hmem u (List.take_subset _ _ h')
    · exact hmem u (List.drop_subset _ _ h')
  · show st.text.take (min st.caret c2) ++ st.text.drop (max st.caret c2) = _
    rw [htext, hmin, hmax, flatten_take_off, flatten_drop_off,
      ← List.flatten_append]
  · refine ⟨ka, ?_, ?_⟩
    · rw [List.length_append, List.length_take]
      omega
    · show min st.caret c2 = off (us.take ka ++ us.drop kb) ka
      rw [hmin, off_append_take (le_refl ka) (by omega)]
  · intro x hx
    cases hx

/-- Removing the codepoint that starts at internal boundary `k`. -/
theorem string_remove_at_boundary {us : List (List Nat)}
    (hus : ∀ u ∈ us, UnitShape u) {k : Nat} (hk : k < us.length) :
    string_remove us.flatten (off us k) =
      (us.take k ++ us.drop (k + 1)).flatten := by
  unfold string_remove
  rw [len_on_boundary hus hk]
  show us.flatten.take (off us k) ++
      us.flatten.drop (off us k + us[k].length) = _
  rw [← (decomp_split us hk).2, flatten_take_off, flatten_drop_off,
    ← List.flatten_append]

/-- The skeleton of `StateInv` after removing unit `k` of the
decomposition, with the caret at boundary `k`. -/
theorem stateInv_remove_unit {us : List (List Nat)}
    (hmem : ∀ u ∈ us, IsCharEnc u) {k : Nat} (hk : k < us.length) :
    StateInv { text := (us.take k ++ us.drop (k + 1)).flatten,
               caret := off us k, caret2 := none } := by
  refine ⟨us.take k ++ us.drop (k + 1), ?_, rfl, ?_, by simp⟩
  · intro u hu
    rcases List.mem_append.1 hu with h' | h'
    · exact hmem u (List.take_subset _ _ h')
    · exact hmem u (List.drop_subset _ _ h')
  · refine ⟨k, ?_, ?_⟩
    · rw [List.length_append, List.length_take]
      omega
    · exact (off_append_take (le_refl k) (by omega) _).symm

/-- `delete_backward` preserves the invariant in every mode. -/
theorem stateInv_delete_backward {st : InputFieldState} (hinv : StateInv st) :
    StateInv st.delete_backward := by
  obtain ⟨text, caret, caret2⟩ := st
  cases caret2 with
  | some c2 => exact stateInv_del_sel hinv rfl
  | none =>
    obtain ⟨us, hmem, htext, hc, _⟩ := hinv
    have hus := units_of_charEnc hmem
    dsimp only at htext hc
    subst htext
    obtain ⟨k, hk, hcar⟩ := hc
    subst hcar
    unfold InputFieldState.delete_backward
    dsimp only
    cases k with
    | zero =>
      rw [off_zero, index_prev_zero]
      cases us with
      | nil =>
        simp only [List.flatten_nil, List.length_nil]
        rw [if_pos trivial]
        exact ⟨[], by simp, by decide, boundaryIn_zero [], by simp⟩
      | cons u us' =>
        have hlen : 1 ≤ u.length := unitShape_length_pos (hus u (by simp))
        rw [if_neg (by simp [List.flatten_cons]; omega)]
        have h0 : (0 : Nat) < (u :: us').length := by simp
        have hrm := string_remove_at_boundary hus h0
        rw [show off (u :: us') 0 = 0 from rfl] at hrm
        rw [hrm]
        have := stateInv_remove_unit hmem h0
        rw [show off (u :: us') 0 = 0 from rfl] at this
        simpa using this
    | succ k =>
      have hklt : k < us.length := by omega
      rw [index_prev_succ hus hklt]
      have hulen : 1 ≤ us[k].length :=
        unitShape_length_pos (hus _ (List.getElem_mem hklt))
      have hofflt : off us k < us.flatten.length := by
        have h1 := (decomp_split us hklt).2
        have h2' := off_le_total us (k + 1)
        omega
      rw [if_neg (by omega)]
      rw [string_remove_at_boundary hus hklt]
      exact stateInv_remove_unit hmem hklt

/-- Caret-mode `insert`, described explicitly. -/
theorem insert_caret_eq {st : InputFieldState} (h : st.caret2 = none)
    (c : Nat) :
    st.insert c =
      { text := st.text.take st.caret ++ encode_char c ++
          st.text.drop st.caret,
        caret := index_next
          (st.text.take st.caret ++ encode_char c ++ st.text.drop st.caret)
          st.caret,
        caret2 := none } := by
  unfold InputFieldState.insert InputFieldState.is_in_selection_mode
  rw [h]
  simp [h]

/-- Selection-mode `insert` first runs `delete_backward`, then inserts in
the resulting caret-mode state. -/
theorem insert_sel_eq {st : InputFieldState} {c2 : Nat}
    (h : st.caret2 = some c2) (c : Nat) :
    st.insert c = st.delete_backward.insert c := by
  unfold InputFieldState.insert InputFieldState.is_in_selection_mode
  rw [h, delete_backward_caret2 st]
  rfl

/-- `index_next` right after inserting a well-shaped unit at a boundary
advances the caret over exactly the inserted unit. -/
theorem stateInv_insert_caret {st : InputFieldState} (hinv : StateInv st)
    (h2 : st.caret2 = none) {c : Nat} (hc : ScalarValue c) :
    StateInv (st.insert c) := by
  obtain ⟨text, caret, caret2⟩ := st
  obtain ⟨us, hmem, htext, hcb, _⟩ := hinv
  dsimp only at htext hcb h2
  subst htext
  subst h2
  obtain ⟨k, hk, hcar⟩ := hcb
  subst hcar
  rw [insert_caret_eq rfl]
  dsimp only
  have henc : UnitShape (encode_char c) := unitShape_encode_char (scalar_le hc)
  have htext2 : us.flatten.take (off us k) ++ encode_char c ++
      us.flatten.drop (off us k) =
      (us.take k).flatten ++ encode_char c ++ (us.drop k).flatten := by
    rw [flatten_take_off, flatten_drop_off]
  have hlen : len_of_codepoint_on
      (us.flatten.take (off us k) ++ encode_char c ++
        us.flatten.drop (off us k)) (off us k) = some (encode_char c).length := by
    rw [htext2]
    rw [show off us k = ((us.take k).flatten).length from rfl]
    exact len_on_unit henc
  have hnext : index_next
      (us.flatten.take (off us k) ++ encode_char c ++
        us.flatten.drop (off us k)) (off us k) =
      off us k + (encode_char c).length := by
    unfold index_next
    rw [hlen]
  rw [hnext, htext2]
  refine ⟨us.take k ++ encode_char c :: us.drop k, ?_, ?_, ?_, by simp⟩
  · intro u hu
    rcases List.mem_append.1 hu with h' | h'
    · exact hmem u (List.take_subset _ _ h')
    · rcases List.mem_cons.1 h' with rfl | h''
      · exact ⟨c, hc, rfl⟩
      · exact hmem u (List.drop_subset _ _ h'')
  · show (us.take k).flatten ++ encode_char c ++ (us.drop k).flatten =
      (us.take k ++ encode_char c :: us.drop k).flatten
    rw [List.flatten_append, List.flatten_cons, List.append_assoc]
  · refine ⟨k + 1, ?_, ?_⟩
    · rw [List.length_append, List.length_take, List.length_cons]
      omega
    · show off us k + (encode_char c).length =
        off (us.take k ++ encode_char c :: us.drop k) (k + 1)
      unfold off
      have hklen : (us.take k).length = k := by
        rw [List.length_take]
        omega
      rw [show k + 1 = (us.take k).length + 1 from by omega, List.take_append,
        List.flatten_append]
      simp [List.length_append, hklen]

/-- `insert` preserves the invariant in every mode. -/
theorem stateInv_insert {st : InputFieldState} (hinv : StateInv st)
    {c : Nat} (hc : ScalarValue c) : StateInv (st.insert c) := by
  cases h2 : st.caret2 with
  | none => exact stateInv_insert_caret hinv h2 hc
  | some c2 =>
    rw [insert_sel_eq h2]
    exact stateInv_insert_caret (stateInv_del_sel hinv h2)
      (delete_backward_caret2 st) hc

/-- `delete_forward` preserves the invariant in every mode. -/
theorem stateInv_delete_forward {st : InputFieldState} (hinv : StateInv st) :
    StateInv st.delete_forward := by
  cases h2 : st.caret2 with
  | some c2 =>
    rw [delete_forward_eq_backward h2]
    exact stateInv_del_sel hinv h2
  | none =>
    obtain ⟨text, caret, caret2⟩ := st
    obtain ⟨us, hmem, htext, hcb, _⟩ := hinv
    have hus := units_of_charEnc hmem
    dsimp only at htext hcb h2
    subst htext
    subst h2
    obtain ⟨k, hk, hcar⟩ := hcb
    subst hcar
    unfold InputFieldState.delete_forward InputFieldState.caret_is_at_end
    dsimp only
    rcases Nat.lt_or_ge k us.length with hklt | hge
    · have hne : off us k ≠ us.flatten.length := by
        have h1 := (decomp_split us hklt).2
        have h2' := off_le_total us (k + 1)
        have hulen : 1 ≤ us[k].length :=
          unitShape_length_pos (hus _ (List.getElem_mem hklt))
        omega
      rw [if_neg (by simpa using hne)]
      rw [string_remove_at_boundary hus hklt]
      exact stateInv_remove_unit hmem hklt
    · have hkeq : k = us.length := by omega
      subst hkeq
      rw [off_length]
      rw [if_pos (by simp)]
      exact ⟨us, hmem, rfl, ⟨us.length, le_refl _, (off_length us).symm⟩, by simp⟩

/-- `caret_left` preserves the invariant. -/
theorem stateInv_caret_left {st : InputFieldState} (hinv : StateInv st) :
    StateInv st.caret_left := by
  obtain ⟨us, hmem, htext, hcb, hc2⟩ := hinv
  have hus := units_of_charEnc hmem
  have hbase : BoundaryIn us (match st.caret2 with
      | some c2 => c2
      | none => st.caret) := by
    cases h : st.caret2 with
    | some c2 => exact hc2 c2 h
    | none => exact hcb
  unfold InputFieldState.caret_left
  refine ⟨us, hmem, htext, ?_, by simp⟩
  show BoundaryIn us (index_prev st.text _)
  rw [htext]
  exact boundaryIn_index_prev hus hbase

/-- `caret_right` preserves the invariant. -/
theorem stateInv_caret_right {st : InputFieldState} (hinv : StateInv st) :
    StateInv st.caret_right := by
  obtain ⟨us, hmem, htext, hcb, hc2⟩ := hinv
  have hus := units_of_charEnc hmem
  have hbase : BoundaryIn us (match st.caret2 with
      | some c2 => c2
      | none => st.caret) := by
    cases h : st.caret2 with
    | some c2 => exact hc2 c2 h
    | none => exact hcb
  unfold InputFieldState.caret_right
  refine ⟨us, hmem, htext, ?_, by simp⟩
  show BoundaryIn us (index_next st.text _)
  rw [htext]
  exact boundaryIn_index_next hus hbase

/-- `caret_left_end` preserves the invariant. -/
theorem stateInv_caret_left_end {st : InputFieldState} (hinv : StateInv st) :
    StateInv st.caret_left_end := by
  obtain ⟨us, hmem, htext, _, _⟩ := hinv
  exact ⟨us, hmem, htext, boundaryIn_zero us, by simp [InputFieldState.caret_left_end]⟩

/-- `caret_right_end` preserves the invariant. -/
theorem stateInv_caret_right_end {st : InputFieldState} (hinv : StateInv st) :
    StateInv st.caret_right_end := by
  obtain ⟨us, hmem, htext, _, _⟩ := hinv
  refine ⟨us, hmem, htext, ?_, by simp [InputFieldState.caret_right_end]⟩
  show BoundaryIn us st.text.length
  rw [htext]
  exact boundaryIn_length us

/-- `select_left` preserves the invariant. -/
theorem stateInv_select_left {st : InputFieldState} (hinv : StateInv st) :
    StateInv st.select_left := by
  obtain ⟨text, caret, caret2⟩ := st
  obtain ⟨us, hmem, htext, hcb, hc2⟩ := hinv
  have hus := units_of_charEnc hmem
  dsimp only at htext hcb hc2
  subst htext
  unfold InputFieldState.select_left
  cases caret2 with
  | some c2 =>
    dsimp only
    split
    · exact ⟨us, hmem, rfl, hcb, by simp⟩
    · refine ⟨us, hmem, rfl, hcb, ?_⟩
      intro x hx
      simp only [Option.some_inj] at hx
      subst hx
      exact boundaryIn_index_prev hus (hc2 c2 rfl)
  | none =>
    refine ⟨us, hmem, rfl, hcb, ?_⟩
    intro x hx
    simp only [Option.some_inj] at hx
    subst hx
    exact boundaryIn_index_prev hus hcb

/-- `select_right` preserves the invariant. -/
theorem stateInv_select_right {st : InputFieldState} (hinv : StateInv st) :
    StateInv st.select_right := by
  obtain ⟨text, caret, caret2⟩ := st
  obtain ⟨us, hmem, htext, hcb, hc2⟩ := hinv
  have hus := units_of_charEnc hmem
  dsimp only at htext hcb hc2
  subst htext
  unfold InputFieldState.select_right
  cases caret2 with
  | some c2 =>
    dsimp only
    split
    · exact ⟨us, hmem, rfl, hcb, by simp⟩
    · refine ⟨us, hmem, rfl, hcb, ?_⟩
      intro x hx
      simp only [Option.some_inj] at hx
      subst hx
      exact boundaryIn_index_next hus (hc2 c2 rfl)
  | none =>
    refine ⟨us, hmem, rfl, hcb, ?_⟩
    intro x hx
    simp only [Option.some_inj] at hx
    subst hx
    exact boundaryIn_index_next hus hcb

/-- The reset state satisfies the invariant. -/
theorem stateInv_empty :
    StateInv { text := [], caret := 0, caret2 := none } :=
  ⟨[], by simp, rfl, boundaryIn_zero [], by simp⟩

/-- The boundary invariant holds in every reachable state. -/
theorem stateInv_reachable {st : InputFieldState} (h : Reachable st) :
    StateInv st := by
  induction h with
  | init => exact stateInv_empty
  | insert _ hc ih => exact stateInv_insert ih hc
  | delete_backward _ ih => exact stateInv_delete_backward ih
  | delete_forward _ ih => exact stateInv_delete_forward ih
  | caret_left _ ih => exact stateInv_caret_left ih
  | caret_right _ ih => exact stateInv_caret_right ih
  | caret_left_end _ ih => exact stateInv_caret_left_end ih
  | caret_right_end _ ih => exact stateInv_caret_right_end ih
  | select_left _ ih => exact stateInv_select_left ih
  | select_right _ ih => exact stateInv_select_right ih
  | clear _ _ => exact stateInv_empty
  | take_text _ _ => exact stateInv_empty

/-! ## Further operation descriptions (for the functional claims) -/

/-- Inserting the boundary-offset arithmetic: the boundary after a unit
freshly placed at position `k` of the decomposition. -/
theorem off_insert_succ {us : List (List Nat)} {k : Nat} (hk : k ≤ us.length)
    (v : List Nat) :
    off (us.take k ++ v :: us.drop k) (k + 1) = off us k + v.length := by
  unfold off
  have hklen : (us.take k).length = k := by
    rw [List.length_take]
    omega
  rw [show k + 1 = (us.take k).length + 1 from by omega, List.take_append,
    List.flatten_append]
  simp

/-- Caret-mode `insert` at decomposition boundary `k`, fully described. -/
theorem insert_at_boundary_eq {us : List (List Nat)} {k : Nat}
    (_hk : k ≤ us.length) {c : Nat} (hc : ScalarValue c) :
    InputFieldState.insert ⟨us.flatten, off us k, none⟩ c =
      ⟨(us.take k ++ encode_char c :: us.drop k).flatten,
        off us k + (encode_char c).length, none⟩ := by
  rw [insert_caret_eq rfl]
  dsimp only
  have henc2 : us.flatten.take (off us k) ++ encode_char c ++
      us.flatten.drop (off us k) =
      (us.take k).flatten ++ encode_char c ++ (us.drop k).flatten := by
    rw [flatten_take_off, flatten_drop_off]
  have hlen : len_of_codepoint_on
      (us.flatten.take (off us k) ++ encode_char c ++
        us.flatten.drop (off us k)) (off us k) =
        len_of_codepoint_on
          ((us.take k).flatten ++ encode_char c ++ (us.drop k).flatten)
          ((us.take k).flatten.length) := by
    rw [henc2, show off us k = ((us.take k).flatten).length from rfl]
  congr 1
  · rw [henc2, List.flatten_append, List.flatten_cons, List.append_assoc]
  · unfold index_next
    rw [hlen, len_on_unit (unitShape_encode_char (scalar_le hc))]

/-- Caret-mode `delete_backward` at a positive decomposition boundary,
fully described: it deletes the unit ending at the caret. -/
theorem delete_backward_succ_eq {us : List (List Nat)}
    (hus : ∀ u ∈ us, UnitShape u) {k : Nat} (hk : k < us.length) :
    InputFieldState.delete_backward ⟨us.flatten, off us (k + 1), none⟩ =
      ⟨(us.take k ++ us.drop (k + 1)).flatten, off us k, none⟩ := by
  unfold InputFieldState.delete_backward
  dsimp only
  rw [index_prev_succ hus hk]
  have hulen := unitShape_length_pos (hus _ (List.getElem_mem hk))
  have h1 := (decomp_split us hk).2
  have h2 := off_le_total us (k + 1)
  rw [if_neg (by omega)]
  rw [string_remove_at_boundary hus hk]

theorem insert_caret2 (st : InputFieldState) (c : Nat) :
    (st.insert c).caret2 = none := by
  cases h : st.caret2 with
  | none => rw [insert_caret_eq h]
  | some c2 => rw [insert_sel_eq h, insert_caret_eq (delete_backward_caret2 st)]

theorem delete_forward_caret2 (st : InputFieldState) :
    st.delete_forward.caret2 = none := by
  obtain ⟨text, caret, caret2⟩ := st
  cases caret2 with
  | some c2 => rfl
  | none =>
    unfold InputFieldState.delete_forward
    dsimp only
    split <;> rfl

/-! ## Claim theorems -/

/-- C1: for every state reachable from the initial empty editor by the
public operations, the buffer is valid UTF-8, the caret is in
`[0, len(text)]` and on a codepoint boundary, and `caret2`, when present,
likewise. -/
theorem c1_boundary_invariant {st : InputFieldState} (h : Reachable st) :
    ValidUtf8 st.text ∧
      (st.caret ≤ st.text.length ∧ TextBoundary st.text st.caret) ∧
      ∀ c2, st.caret2 = some c2 →
        c2 ≤ st.text.length ∧ TextBoundary st.text c2 := by
  obtain ⟨us, hmem, htext, hcb, hc2⟩ := stateInv_reachable h
  refine ⟨⟨us, hmem, htext⟩, ⟨?_, us, hmem, htext, hcb⟩, ?_⟩
  · rw [htext]
    exact boundaryIn_le hcb
  · intro c2 h2
    refine ⟨?_, us, hmem, htext, hc2 c2 h2⟩
    rw [htext]
    exact boundaryIn_le (hc2 c2 h2)

theorem c1_boundary_invariant_witness :
    ValidUtf8 (InputFieldState.insert ⟨[], 0, none⟩ 97).text ∧
      ((InputFieldState.insert ⟨[], 0, none⟩ 97).caret ≤
          (InputFieldState.insert ⟨[], 0, none⟩ 97).text.length ∧
        TextBoundary (InputFieldState.insert ⟨[], 0, none⟩ 97).text
          (InputFieldState.insert ⟨[], 0, none⟩ 97).caret) ∧
      ∀ c2, (InputFieldState.insert ⟨[], 0, none⟩ 97).caret2 = some c2 →
        c2 ≤ (InputFieldState.insert ⟨[], 0, none⟩ 97).text.length ∧
          TextBoundary (InputFieldState.insert ⟨[], 0, none⟩ 97).text c2 :=
  c1_boundary_invariant (Reachable.insert Reachable.init (by decide))

/-- C2: the claim says `deleteBackward()` with caret 0 in caret mode is a
no-op even on a non-empty buffer; the code instead removes the codepoint
*after* the caret (the ignored `bool` of `index_prev` is the slip).  This
theorem evaluates the code at the failing input `text = "a"`, `caret = 0`:
the text becomes empty instead of staying `"a"`. -/
theorem c2_delete_backward_at_zero_code_eval :
    InputFieldState.delete_backward ⟨[97], 0, none⟩ = ⟨[], 0, none⟩ ∧
      InputFieldState.delete_backward ⟨[], 0, none⟩ = ⟨[], 0, none⟩ := by
  constructor <;> decide

/-- C6: in selection mode, `caretLeft`/`caretRight` set the caret to the
`caret2` endpoint, clear `caret2`, and apply one ordinary single-codepoint
step from there (`index_prev`/`index_next`, which are no-ops at the buffer
ends). -/
theorem c6_plain_navigation_collapse {st : InputFieldState} {b : Nat}
    (h : st.caret2 = some b) :
    st.caret_left = ⟨st.text, index_prev st.text b, none⟩ ∧
      st.caret_right = ⟨st.text, index_next st.text b, none⟩ := by
  constructor
  · unfold InputFieldState.caret_left
    rw [h]
  · unfold InputFieldState.caret_right
    rw [h]

theorem c6_plain_navigation_collapse_witness :
    InputFieldState.caret_left ⟨[97, 98], 0, some 1⟩ =
        ⟨[97, 98], index_prev [97, 98] 1, none⟩ ∧
      InputFieldState.caret_right ⟨[97, 98], 0, some 1⟩ =
        ⟨[97, 98], index_next [97, 98] 1, none⟩ :=
  c6_plain_navigation_collapse rfl

/-- C8: `copy` never mutates the editor state, and in selection mode it
hands the selected substring to the clipboard adapter, whose fallible
result (success or error) is returned to the caller unchanged. -/
theorem c8_copy_never_mutates {ε : Type} (st : InputFieldState)
    (writeText : List Nat → Except ε Unit) :
    (st.copy writeText).2 = st ∧
      ∀ c2, st.caret2 = some c2 →
        (st.copy writeText).1 =
          writeText ((st.text.take (max st.caret c2)).drop (min st.caret c2)) := by
  obtain ⟨text, caret, caret2⟩ := st
  cases caret2 with
  | some c2 =>
    refine ⟨rfl, ?_⟩
    intro x hx
    simp only [Option.some_inj] at hx
    subst hx
    rfl
  | none =>
    refine ⟨rfl, ?_⟩
    intro x hx
    cases hx

theorem c8_copy_never_mutates_witness :
    (InputFieldState.copy ⟨[97, 98], 0, some 1⟩
        (fun _ => (Except.error () : Except Unit Unit))).2 =
      ⟨[97, 98], 0, some 1⟩ ∧
    (InputFieldState.copy ⟨[97, 98], 0, some 1⟩
        (fun _ => (Except.error () : Except Unit Unit))).1 =
      (fun _ => (Except.error () : Except Unit Unit))
        ((([97, 98] : List Nat).take (max 0 1)).drop (min 0 1)) :=
  ⟨(c8_copy_never_mutates _ _).1, (c8_copy_never_mutates _ _).2 1 rfl⟩

/-- C9: with a present but zero-width selection (`caret2 = caret`), both
deletions remove no text: they only clear `caret2` and keep `text` and
`caret`. -/
theorem c9_zero_width_selection_delete {st : InputFieldState}
    (_hinv : StateInv st) (h : st.caret2 = some st.caret) :
    st.delete_backward = ⟨st.text, st.caret, none⟩ ∧
      st.delete_forward = ⟨st.text, st.caret, none⟩ := by
  have hb : st.delete_backward = ⟨st.text, st.caret, none⟩ := by
    rw [delete_backward_sel_eq h]
    simp [List.take_append_drop]
  exact ⟨hb, by rw [delete_forward_eq_backward h, hb]⟩

theorem stateInv_a1_sel : StateInv ⟨[97], 1, some 1⟩ := by
  refine ⟨[[97]], ?_, rfl, ⟨1, by decide, by decide⟩, ?_⟩
  · intro u hu
    rw [List.mem_singleton] at hu
    subst hu
    exact ⟨97, by decide, by decide⟩
  · intro c2 h
    rw [Option.some_inj] at h
    subst h
    exact ⟨1, by decide, by decide⟩

theorem c9_zero_width_selection_delete_witness :
    InputFieldState.delete_backward ⟨[97], 1, some 1⟩ = ⟨[97], 1, none⟩ ∧
      InputFieldState.delete_forward ⟨[97], 1, some 1⟩ = ⟨[97], 1, none⟩ :=
  c9_zero_width_selection_delete stateInv_a1_sel rfl

theorem len_on_elim {s : List Nat} {i n : Nat}
    (h : len_of_codepoint_on s i = some n) :
    ∃ b, s.get? i = some b ∧ classify_byte b = some n := by
  unfold len_of_codepoint_on at h
  rcases hg : s.get? i with _ | b
  · rw [hg] at h
    cases h
  · rw [hg] at h
    exact ⟨b, rfl, h⟩

/-- C10: in caret mode, `deleteForward` never moves the caret and never
enters selection mode; at the end of the buffer it is a no-op on the text,
and elsewhere it removes exactly the codepoint starting at the caret. -/
theorem c10_delete_forward_frame {st : InputFieldState} (hinv : StateInv st)
    (h2 : st.caret2 = none) :
    st.delete_forward.caret = st.caret ∧ st.delete_forward.caret2 = none ∧
      (st.caret = st.text.length → st.delete_forward.text = st.text) ∧
      (st.caret < st.text.length →
        ∃ n, len_of_codepoint_on st.text st.caret = some n ∧
          st.delete_forward.text =
            st.text.take st.caret ++ st.text.drop (st.caret + n)) := by
  obtain ⟨text, caret, caret2⟩ := st
  obtain ⟨us, hmem, htext, hcb, _⟩ := hinv
  have hus := units_of_charEnc hmem
  dsimp only at htext hcb h2
  subst htext
  subst h2
  obtain ⟨k, hk, hcar⟩ := hcb
  subst hcar
  unfold InputFieldState.delete_forward InputFieldState.caret_is_at_end
  dsimp only
  split
  · next hcond =>
    have heq : off us k = us.flatten.length := by rwa [beq_iff_eq] at hcond
    exact ⟨rfl, rfl, fun _ => rfl, fun hlt => absurd heq (by omega)⟩
  · next hcond =>
    have hne : ¬off us k = us.flatten.length := by rwa [beq_iff_eq] at hcond
    have hklt : k < us.length := by
      rcases Nat.lt_or_ge k us.length with h' | h'
      · exact h'
      · exact absurd (off_ge us h') hne
    have hlen := len_on_boundary hus hklt
    refine ⟨rfl, rfl, fun heq => absurd heq hne, fun _ => ?_⟩
    refine ⟨us[k].length, hlen, ?_⟩
    show string_remove us.flatten (off us k) = _
    unfold string_remove
    rw [hlen]

theorem stateInv_a0 : StateInv ⟨[97], 0, none⟩ := by
  refine ⟨[[97]], ?_, rfl, boundaryIn_zero _, by simp⟩
  intro u hu
  rw [List.mem_singleton] at hu
  subst hu
  exact ⟨97, by decide, by decide⟩

theorem c10_delete_forward_frame_witness :
    (InputFieldState.delete_forward ⟨[97], 0, none⟩).caret =
        (⟨[97], 0, none⟩ : InputFieldState).caret ∧
      (InputFieldState.delete_forward ⟨[97], 0, none⟩).caret2 = none ∧
      ((⟨[97], 0, none⟩ : InputFieldState).caret =
          (⟨[97], 0, none⟩ : InputFieldState).text.length →
        (InputFieldState.delete_forward ⟨[97], 0, none⟩).text =
          (⟨[97], 0, none⟩ : InputFieldState).text) ∧
      ((⟨[97], 0, none⟩ : InputFieldState).caret <
          (⟨[97], 0, none⟩ : InputFieldState).text.length →
        ∃ n, len_of_codepoint_on (⟨[97], 0, none⟩ : InputFieldState).text
            (⟨[97], 0, none⟩ : InputFieldState).caret = some n ∧
          (InputFieldState.delete_forward ⟨[97], 0, none⟩).text =
            (⟨[97], 0, none⟩ : InputFieldState).text.take
                (⟨[97], 0, none⟩ : InputFieldState).caret ++
              (⟨[97], 0, none⟩ : InputFieldState).text.drop
                ((⟨[97], 0, none⟩ : InputFieldState).caret + n)) :=
  c10_delete_forward_frame stateInv_a0 rfl

/-- C4: in selection mode with normalized range `[a, b)`, `insert c`
produces `text[0..a] ++ utf8(c) ++ text[b..]`, puts the caret at
`a + len_utf8(c)`, and exits selection mode. -/
theorem c4_selection_replace {st : InputFieldState} (hinv : StateInv st)
    {c2 : Nat} (h : st.caret2 = some c2) {c : Nat} (hc : ScalarValue c) :
    (st.insert c).text =
        st.text.take (min st.caret c2) ++ encode_char c ++
          st.text.drop (max st.caret c2) ∧
      (st.insert c).caret = min st.caret c2 + (encode_char c).length ∧
      (st.insert c).caret2 = none := by
  obtain ⟨us, hmem, htext, hcb, hc2all⟩ := hinv
  have ha : min st.caret c2 ≤ st.text.length := by
    obtain ⟨ka, kb, _, _, hmin, _⟩ := boundary_min_max hcb (hc2all c2 h)
    rw [hmin, htext]
    exact off_le_total us ka
  rw [insert_sel_eq h, delete_backward_sel_eq h, insert_caret_eq rfl]
  dsimp only
  have hlen_take : (st.text.take (min st.caret c2)).length = min st.caret c2 := by
    rw [List.length_take]
    omega
  rw [List.take_left' hlen_take, List.drop_left' hlen_take]
  refine ⟨rfl, ?_, rfl⟩
  unfold index_next
  have hscan : len_of_codepoint_on
      (st.text.take (min st.caret c2) ++ encode_char c ++
        st.text.drop (max st.caret c2))
      ((st.text.take (min st.caret c2)).length) =
      some (encode_char c).length :=
    len_on_unit (unitShape_encode_char (scalar_le hc))
  rw [hlen_take] at hscan
  rw [hscan]

theorem stateInv_hi_sel : StateInv ⟨[104, 105], 2, some 1⟩ := by
  refine ⟨[[104], [105]], ?_, rfl, ⟨2, by decide, by decide⟩, ?_⟩
  · intro u hu
    rcases List.mem_cons.1 hu with rfl | hu'
    · exact ⟨104, by decide, by decide⟩
    · rw [List.mem_singleton] at hu'
      subst hu'
      exact ⟨105, by decide, by decide⟩
  · intro x hx
    rw [Option.some_inj] at hx
    subst hx
    exact ⟨1, by decide, by decide⟩

theorem c4_selection_replace_witness :
    (InputFieldState.insert ⟨[104, 105], 2, some 1⟩ 111).text =
        (⟨[104, 105], 2, some 1⟩ : InputFieldState).text.take (min 2 1) ++
          encode_char 111 ++
          (⟨[104, 105], 2, some 1⟩ : InputFieldState).text.drop (max 2 1) ∧
      (InputFieldState.insert ⟨[104, 105], 2, some 1⟩ 111).caret =
        min 2 1 + (encode_char 111).length ∧
      (InputFieldState.insert ⟨[104, 105], 2, some 1⟩ 111).caret2 = none :=
  c4_selection_replace stateInv_hi_sel rfl (by decide)

/-- C5: from any valid caret-mode state, `insert c` followed by
`deleteBackward` restores the text and the caret. -/
theorem c5_insert_delete_round_trip {st : InputFieldState} (hinv : StateInv st)
    (h2 : st.caret2 = none) {c : Nat} (hc : ScalarValue c) :
    ((st.insert c).delete_backward).text = st.text ∧
      ((st.insert c).delete_backward).caret = st.caret := by
  obtain ⟨text, caret, caret2⟩ := st
  obtain ⟨us, hmem, htext, hcb, _⟩ := hinv
  dsimp only at htext hcb h2
  subst htext
  subst h2
  obtain ⟨k, hk, hcar⟩ := hcb
  subst hcar
  rw [insert_at_boundary_eq hk hc]
  have hklen : (us.take k).length = k := by
    rw [List.length_take]
    omega
  have hus'units : ∀ u ∈ us.take k ++ encode_char c :: us.drop k,
      UnitShape u := by
    intro u hu
    rcases List.mem_append.1 hu with h' | h'
    · exact unitShape_of_charEnc (hmem u (List.take_subset _ _ h'))
    · rcases List.mem_cons.1 h' with rfl | h''
      · exact unitShape_encode_char (scalar_le hc)
      · exact unitShape_of_charEnc (hmem u (List.drop_subset _ _ h''))
  have hk' : k < (us.take k ++ encode_char c :: us.drop k).length := by
    rw [List.length_append, List.length_cons]
    omega
  rw [show off us k + (encode_char c).length =
      off (us.take k ++ encode_char c :: us.drop k) (k + 1) from
    (off_insert_succ hk _).symm]
  rw [delete_backward_succ_eq hus'units hk']
  have h1 : (us.take k ++ encode_char c :: us.drop k).take k = us.take k :=
    List.take_left' hklen
  have h2' : (us.take k ++ encode_char c :: us.drop k).drop (k + 1) =
      us.drop k := by
    rw [show k + 1 = (us.take k).length + 1 from by omega, List.drop_append]
    simp
  constructor
  · show ((us.take k ++ encode_char c :: us.drop k).take k ++
        (us.take k ++ encode_char c :: us.drop k).drop (k + 1)).flatten =
      us.flatten
    rw [h1, h2', List.take_append_drop]
  · exact off_append_take (le_refl k) hk _

theorem stateInv_ab_mid : StateInv ⟨[97, 98], 1, none⟩ := by
  refine ⟨[[97], [98]], ?_, rfl, ⟨1, by decide, by decide⟩, by simp⟩
  intro u hu
  rcases List.mem_cons.1 hu with rfl | hu'
  · exact ⟨97, by decide, by decide⟩
  · rw [List.mem_singleton] at hu'
    subst hu'
    exact ⟨98, by decide, by decide⟩

theorem c5_insert_delete_round_trip_witness :
    ((InputFieldState.insert ⟨[97, 98], 1, none⟩ 128512).delete_backward).text =
        (⟨[97, 98], 1, none⟩ : InputFieldState).text ∧
      ((InputFieldState.insert ⟨[97, 98], 1, none⟩ 128512).delete_backward).caret =
        (⟨[97, 98], 1, none⟩ : InputFieldState).caret :=
  c5_insert_delete_round_trip stateInv_ab_mid rfl (by decide)

/-- C7: on a valid UTF-8 buffer at a codepoint boundary, `len_of_codepoint_on`
returns `none` exactly at the one-past-the-end position, otherwise
`some n` with `n` given by the leading byte's prefix class, and the
`unreachable!()` branch is never taken. -/
theorem c7_scanner_forward_classification {s : List Nat} {i : Nat}
    (h : TextBoundary s i) :
    len_forward_panics s i = false ∧
      (len_of_codepoint_on s i = none ↔ i = s.length) ∧
      (i < s.length →
        ∃ b n, s.get? i = some b ∧ len_of_codepoint_on s i = some n ∧
          ((b ≤ 0x7f ∧ n = 1) ∨ (0xc0 ≤ b ∧ b ≤ 0xdf ∧ n = 2) ∨
            (0xe0 ≤ b ∧ b ≤ 0xef ∧ n = 3) ∨
            (0xf0 ≤ b ∧ b ≤ 0xf7 ∧ n = 4))) := by
  obtain ⟨us, hmem, rfl, k, hk, rfl⟩ := h
  have hus := units_of_charEnc hmem
  rcases Nat.lt_or_ge k us.length with hklt | hge
  · have hlen := len_on_boundary hus hklt
    obtain ⟨b, hget, hclass⟩ := len_on_elim hlen
    refine ⟨?_, ?_, ?_⟩
    · unfold len_forward_panics
      rw [hget]
      show (classify_byte b).isNone = false
      rw [hclass]
      rfl
    · constructor
      · intro hnone
        rw [hlen] at hnone
        cases hnone
      · intro heq
        have hofflt : off us k < us.flatten.length := by
          have h1 := (decomp_split us hklt).2
          have h2 := off_le_total us (k + 1)
          have := unitShape_length_pos (hus _ (List.getElem_mem hklt))
          omega
        omega
    · intro _
      exact ⟨b, us[k].length, hget, hlen, classify_byte_cases hclass⟩
  · have hkeq : off us k = us.flatten.length := off_ge us hge
    rw [hkeq]
    refine ⟨?_, ?_, ?_⟩
    · unfold len_forward_panics
      rw [List.get?_eq_none.2 (le_refl _)]
    · rw [len_on_out (le_refl _)]
      simp
    · intro hlt
      omega

theorem textBoundary_a_eacute : TextBoundary [97, 195, 169] 1 := by
  refine ⟨[[97], [195, 169]], ?_, rfl, 1, by decide, by decide⟩
  intro u hu
  rcases List.mem_cons.1 hu with rfl | hu'
  · exact ⟨97, by decide, by decide⟩
  · rw [List.mem_singleton] at hu'
    subst hu'
    exact ⟨233, by decide, by decide⟩

theorem c7_scanner_forward_classification_witness :
    len_forward_panics [97, 195, 169] 1 = false ∧
      (len_of_codepoint_on [97, 195, 169] 1 = none ↔
        1 = ([97, 195, 169] : List Nat).length) ∧
      (1 < ([97, 195, 169] : List Nat).length →
        ∃ b n, ([97, 195, 169] : List Nat).get? 1 = some b ∧
          len_of_codepoint_on [97, 195, 169] 1 = some n ∧
          ((b ≤ 0x7f ∧ n = 1) ∨ (0xc0 ≤ b ∧ b ≤ 0xdf ∧ n = 2) ∨
            (0xe0 ≤ b ∧ b ≤ 0xef ∧ n = 3) ∨
            (0xf0 ≤ b ∧ b ≤ 0xf7 ∧ n = 4))) :=
  c7_scanner_forward_classification textBoundary_a_eacute

/-- C3, counterexample: `select_left` in caret mode with caret 0 (here on
the empty buffer) *does* leave the editor in selection mode with
`caret2 = caret`: the creation branch stores the unmoved index
unconditionally. -/
theorem c3_counterexample_select_left_at_zero :
    (InputFieldState.select_left ⟨[], 0, none⟩).caret2 =
        some (InputFieldState.select_left ⟨[], 0, none⟩).caret ∧
      (InputFieldState.select_left ⟨[], 0, none⟩).is_in_selection_mode = true := by
  decide

/-- C3, amended: no operation other than selection *creation* ever leaves
`caret2 = caret`: every non-select operation exits or avoids a degenerate
selection, and extending an existing selection collapses to caret mode when
`caret2` reaches `caret`; but `selectLeft` in caret mode with caret 0 and
`selectRight` in caret mode with caret at the end do create a zero-width
selection (only away from those edges does creation give `caret2 ≠ caret`). -/
theorem c3_no_zero_width_selection_amended {st : InputFieldState}
    (hinv : StateInv st) (c : Nat) :
    (st.insert c).caret2 ≠ some (st.insert c).caret ∧
      st.delete_backward.caret2 ≠ some st.delete_backward.caret ∧
      st.delete_forward.caret2 ≠ some st.delete_forward.caret ∧
      st.caret_left.caret2 ≠ some st.caret_left.caret ∧
      st.caret_right.caret2 ≠ some st.caret_right.caret ∧
      st.caret_left_end.caret2 ≠ some st.caret_left_end.caret ∧
      st.caret_right_end.caret2 ≠ some st.caret_right_end.caret ∧
      st.clear.caret2 ≠ some st.clear.caret ∧
      (st.take_text.2).caret2 ≠ some (st.take_text.2).caret ∧
      (∀ c2, st.caret2 = some c2 →
        st.select_left.caret2 ≠ some st.select_left.caret) ∧
      (∀ c2, st.caret2 = some c2 →
        st.select_right.caret2 ≠ some st.select_right.caret) ∧
      (st.caret2 = none → st.caret ≠ 0 →
        st.select_left.caret2 ≠ some st.select_left.caret) ∧
      (st.caret2 = none → st.caret ≠ st.text.length →
        st.select_right.caret2 ≠ some st.select_right.caret) := by
  obtain ⟨text, caret, caret2⟩ := st
  obtain ⟨us, hmem, htext, hcb, hc2all⟩ := hinv
  have hus := units_of_charEnc hmem
  dsimp only at htext hcb hc2all
  subst htext
  refine ⟨?_, ?_, ?_, ?_, ?_, ?_, ?_, ?_, ?_, ?_, ?_, ?_, ?_⟩
  · rw [insert_caret2]
    simp
  · rw [delete_backward_caret2]
    simp
  · rw [delete_forward_caret2]
    simp
  · unfold InputFieldState.caret_left
    simp
  · unfold InputFieldState.caret_right
    simp
  · unfold InputFieldState.caret_left_end
    simp
  · unfold InputFieldState.caret_right_end
    simp
  · unfold InputFieldState.clear InputFieldState.take_text
    simp
  · unfold InputFieldState.take_text
    simp
  · intro c2 h
    subst h
    unfold InputFieldState.select_left
    dsimp only
    split
    · simp
    · next hne =>
      simp only [ne_eq, Option.some_inj]
      intro heq
      exact hne heq.symm
  · intro c2 h
    subst h
    unfold InputFieldState.select_right
    dsimp only
    split
    · simp
    · next hne =>
      simp only [ne_eq, Option.some_inj]
      intro heq
      exact hne heq.symm
  · intro hnone hne0
    subst hnone
    unfold InputFieldState.select_left
    dsimp only
    obtain ⟨k, hk, hcar⟩ := hcb
    subst hcar
    cases k with
    | zero => exact absurd (off_zero us) hne0
    | succ j =>
      have hjlt : j < us.length := by omega
      rw [index_prev_succ hus hjlt]
      simp only [ne_eq, Option.some_inj]
      have h1 := (decomp_split us hjlt).2
      have h2 := unitShape_length_pos (hus _ (List.getElem_mem hjlt))
      omega
  · intro hnone hnelen
    subst hnone
    unfold InputFieldState.select_right
    dsimp only
    obtain ⟨k, hk, hcar⟩ := hcb
    subst hcar
    rcases Nat.lt_or_ge k us.length with hklt | hge
    · rw [index_next_lt hus hklt]
      simp only [ne_eq, Option.some_inj]
      have h1 := (decomp_split us hklt).2
      have h2 := unitShape_length_pos (hus _ (List.getElem_mem hklt))
      omega
    · exact absurd (off_ge us hge) hnelen

theorem stateInv_a_mid : StateInv ⟨[97], 1, none⟩ := by
  refine ⟨[[97]], ?_, rfl, ⟨1, by decide, by decide⟩, by simp⟩
  intro u hu
  rw [List.mem_singleton] at hu
  subst hu
  exact ⟨97, by decide, by decide⟩

theorem c3_no_zero_width_selection_amended_witness :
    (InputFieldState.insert ⟨[97], 1, none⟩ 98).caret2 ≠
        some (InputFieldState.insert ⟨[97], 1, none⟩ 98).caret ∧
      (InputFieldState.delete_backward ⟨[97], 1, none⟩).caret2 ≠
        some (InputFieldState.delete_backward ⟨[97], 1, none⟩).caret ∧
      (InputFieldState.delete_forward ⟨[97], 1, none⟩).caret2 ≠
        some (InputFieldState.delete_forward ⟨[97], 1, none⟩).caret ∧
      (InputFieldState.caret_left ⟨[97], 1, none⟩).caret2 ≠
        some (InputFieldState.caret_left ⟨[97], 1, none⟩).caret ∧
      (InputFieldState.caret_right ⟨[97], 1, none⟩).caret2 ≠
        some (InputFieldState.caret_right ⟨[97], 1, none⟩).caret ∧
      (InputFieldState.caret_left_end ⟨[97], 1, none⟩).caret2 ≠
        some (InputFieldState.caret_left_end ⟨[97], 1, none⟩).caret ∧
      (InputFieldState.caret_right_end ⟨[97], 1, none⟩).caret2 ≠
        some (InputFieldState.caret_right_end ⟨[97], 1, none⟩).caret ∧
      (InputFieldState.clear ⟨[97], 1, none⟩).caret2 ≠
        some (InputFieldState.clear ⟨[97], 1, none⟩).caret ∧
      ((InputFieldState.take_text ⟨[97], 1, none⟩).2).caret2 ≠
        some ((InputFieldState.take_text ⟨[97], 1, none⟩).2).caret ∧
      (∀ c2, (⟨[97], 1, none⟩ : InputFieldState).caret2 = some c2 →
        (InputFieldState.select_left ⟨[97], 1, none⟩).caret2 ≠
          some (InputFieldState.select_left ⟨[97], 1, none⟩).caret) ∧
      (∀ c2, (⟨[97], 1, none⟩ : InputFieldState).caret2 = some c2 →
        (InputFieldState.select_right ⟨[97], 1, none⟩).caret2 ≠
          some (InputFieldState.select_right ⟨[97], 1, none⟩).caret) ∧
      ((⟨[97], 1, none⟩ : InputFieldState).caret2 = none →
        (⟨[97], 1, none⟩ : InputFieldState).caret ≠ 0 →
        (InputFieldState.select_left ⟨[97], 1, none⟩).caret2 ≠
          some (InputFieldState.select_left ⟨[97], 1, none⟩).caret) ∧
      ((⟨[97], 1, none⟩ : InputFieldState).caret2 = none →
        (⟨[97], 1, none⟩ : InputFieldState).caret ≠
          (⟨[97], 1, none⟩ : InputFieldState).text.length →
        (InputFieldState.select_right ⟨[97], 1, none⟩).caret2 ≠
          some (InputFieldState.select_right ⟨[97], 1, none⟩).caret) :=
  c3_no_zero_width_selection_amended stateInv_a_mid 98
